import Mathlib

/-!
Shallow embedding of the cross-source match reconciliation engine of
`matches.py` (repository RandomProject): team-name normalization, fuzzy
name matching, competition filtering, channel merging, and kickoff
sorting.  Strings are modelled as `List Char`.  The two external
collaborators that cannot be embedded — the Unicode NFKD decomposition
step of `unicodedata.normalize` and the two similarity scores of the
`rapidfuzz` library — are taken as parameters (`nfkd`, `ratioW`,
`ratioP`); the only fact ever assumed about `nfkd` is that it is the
identity on pure-ASCII strings, which is a defining property of NFKD.
-/

namespace Football

/-- Python `str.lower` restricted to ASCII: maps the characters A–Z to
a–z and leaves every other character unchanged. -/
def lowerChar (c : Char) : Char :=
  if 65 ≤ c.toNat ∧ c.toNat ≤ 90 then Char.ofNat (c.toNat + 32) else c

/-- Lowercase an entire string, character by character. -/
def lowerStr (s : List Char) : List Char := s.map lowerChar

/-- A character that survives `.encode("ascii", "ignore")`. -/
def isAsciiChar (c : Char) : Bool := c.toNat < 128

/-- A character in the regex class `[a-z]`. -/
def isLowerAlpha (c : Char) : Bool := 97 ≤ c.toNat && c.toNat ≤ 122

/-- The substitution `re.sub(r"[^a-z ]", " ", n)`: every character
outside `[a-z ]` becomes a space. -/
def replaceNonAlpha (s : List Char) : List Char :=
  s.map (fun c => if isLowerAlpha c ∨ c = ' ' then c else ' ')

/-- The substitution `re.sub(r"\s+", " ", n)` on a string whose only
whitespace characters are spaces: collapse each run of spaces to a
single space. -/
def collapseSpaces : List Char → List Char
  | [] => []
  | c :: rest =>
    if c = ' ' ∧ rest.head? = some ' ' then collapseSpaces rest
    else c :: collapseSpaces rest

/-- Python `str.strip()` on a string whose only whitespace characters
are spaces: drop leading and trailing spaces. -/
def stripSpaces (s : List Char) : List Char :=
  ((s.dropWhile (fun c => c = ' ')).reverse.dropWhile (fun c => c = ' ')).reverse

/-- Helper for `tokens`: `cur` holds the (reversed) word currently
being read. -/
def tokensAux (cur : List Char) : List Char → List (List Char)
  | [] => if cur = [] then [] else [cur.reverse]
  | c :: rest =>
    if c = ' ' then
      if cur = [] then tokensAux [] rest else cur.reverse :: tokensAux [] rest
    else tokensAux (c :: cur) rest

/-- Python `str.split()` (no argument) on a string whose only
whitespace characters are spaces: the maximal space-free words, with
empty pieces dropped. -/
def tokens (s : List Char) : List (List Char) := tokensAux [] s

/-- Python `" ".join(ts)`. -/
def joinTokens : List (List Char) → List Char
  | [] => []
  | t :: ts => t ++ (if ts.isEmpty then [] else ' ' :: joinTokens ts)

/-- The stopword set of `normalize_team_name`. -/
def stopwords : List (List Char) :=
  ["fc", "cf", "club", "the", "team", "deportivo"].map String.toList

/-- Embedding of `normalize_team_name`, parametric in the NFKD
decomposition `nfkd` performed by `unicodedata.normalize("NFKD", ·)`:
decompose, drop non-ASCII, lowercase, blank out characters outside
`[a-z ]`, collapse and strip whitespace, split into tokens, drop
stopwords, and rejoin with single spaces. -/
def normalize_team_name (nfkd : List Char → List Char) (name : List Char) : List Char :=
  joinTokens (((tokens (stripSpaces (collapseSpaces (replaceNonAlpha
    (lowerStr ((nfkd name).filter isAsciiChar)))))).filter
      (fun t => decide (t ∉ stopwords))))

/-- Does `needle` occur at the very start of `hay`? (list analogue of
Python string startswith, used to define substring containment). -/
def startsWith : List Char → List Char → Bool
  | [], _ => true
  | _ :: _, [] => false
  | a :: as, b :: bs => a == b && startsWith as bs

/-- Python `needle in hay` on strings: contiguous substring test. -/
def containsSub (needle : List Char) : List Char → Bool
  | [] => needle.isEmpty
  | c :: rest => startsWith needle (c :: rest) || containsSub needle rest

/-- Specification-level substring relation: `n` occurs contiguously
inside `h`. -/
def IsSubstring (n h : List Char) : Prop := ∃ u v, h = u ++ n ++ v

/-- Embedding of `names_equivalent`, parametric in the NFKD map and in
the two rapidfuzz scores (`ratioW` models `fuzz.ratio`, `ratioP`
models `fuzz.partial_ratio`; both are 0–100 integer-valued here). -/
def names_equivalent (nfkd : List Char → List Char)
    (ratioW ratioP : List Char → List Char → Nat) (n1 n2 : List Char) : Bool :=
  let t1 := normalize_team_name nfkd n1
  let t2 := normalize_team_name nfkd n2
  if t1 = [] ∨ t2 = [] then false
  else if (tokens t1).any (fun t => decide (t ∈ tokens t2)) then true
  else if 80 ≤ ratioW t1 t2 ∨ 80 ≤ ratioP t1 t2 then true
  else containsSub t1 t2 || containsSub t2 t1

/-- Embedding of `teams_match`: home vs home and away vs away. -/
def teams_match (nfkd : List Char → List Char)
    (ratioW ratioP : List Char → List Char → Nat)
    (h1 a1 h2 a2 : List Char) : Bool :=
  names_equivalent nfkd ratioW ratioP h1 h2 &&
    names_equivalent nfkd ratioW ratioP a1 a2

/-- The fixed age-grade/reserve markers of `is_banned_match`. -/
def bannedMarkers : List (List Char) :=
  ["u18", "u19", "u20", "u21", "u23", "youth", "reserve", "reserves", "academy"].map
    String.toList

/-- The literal string "women". -/
def womenStr : List Char := String.toList "women"

/-- The literal string "nwsl". -/
def nwslStr : List Char := String.toList "nwsl"

/-- Embedding of `is_banned_match`, parametric in the banned-tournament
set `banned` (in the source: `BANNED_TOURNAMENTS_LOWER`, a set of
lowercased lines loaded once from `banned.txt`; the file read itself is
I/O and is represented by this parameter). -/
def is_banned_match (banned : List (List Char))
    (home away competition : List Char) : Bool :=
  let lname := lowerStr competition
  if banned.contains lname then true
  else if containsSub womenStr lname || containsSub nwslStr lname then true
  else if bannedMarkers.any (fun p => containsSub p lname) then true
  else if containsSub womenStr (lowerStr home) || containsSub womenStr (lowerStr away) then true
  else false

/-- Numeric value of an ASCII digit, `none` for non-digits. -/
def digitVal (c : Char) : Option Nat :=
  if 48 ≤ c.toNat ∧ c.toNat ≤ 57 then some (c.toNat - 48) else none

/-- The `%Y` directive of `strptime`: exactly four digits. -/
def parseYear : List Char → Option (Nat × List Char)
  | a :: b :: c :: d :: rest => do
    let va ← digitVal a
    let vb ← digitVal b
    let vc ← digitVal c
    let vd ← digitVal d
    pure (((va * 10 + vb) * 10 + vc) * 10 + vd, rest)
  | _ => none

/-- The `%m` directive of `strptime`: the regex `1[0-2]|0[1-9]|[1-9]`,
longest alternative first (for this fixed format the greedy choice is
the only one that can let the rest of the pattern match, since a month
is always followed by the literal `-`, which is not a digit). -/
def parseMonth : List Char → Option (Nat × List Char)
  | a :: b :: rest =>
    match digitVal a, digitVal b with
    | some va, some vb =>
      if va = 1 ∧ vb ≤ 2 then some (10 + vb, rest)
      else if va = 0 ∧ 1 ≤ vb then some (vb, rest)
      else if 1 ≤ va then some (va, b :: rest)
      else none
    | some va, none => if 1 ≤ va then some (va, b :: rest) else none
    | none, _ => none
  | [a] => do
    let va ← digitVal a
    if 1 ≤ va then pure (va, []) else none
  | [] => none

/-- The `%d` directive of `strptime`: the regex
`3[01]|[12][0-9]|0[1-9]|[1-9]`, with the same greedy reading. -/
def parseDay : List Char → Option (Nat × List Char)
  | a :: b :: rest =>
    match digitVal a, digitVal b with
    | some va, some vb =>
      if va = 3 ∧ vb ≤ 1 then some (30 + vb, rest)
      else if (va = 1 ∨ va = 2) then some (va * 10 + vb, rest)
      else if va = 0 ∧ 1 ≤ vb then some (vb, rest)
      else if 1 ≤ va then some (va, b :: rest)
      else none
    | some va, none => if 1 ≤ va then some (va, b :: rest) else none
    | none, _ => none
  | [a] => do
    let va ← digitVal a
    if 1 ≤ va then pure (va, []) else none
  | [] => none

/-- The `%H` directive of `strptime`: the regex `2[0-3]|[01][0-9]|[0-9]`. -/
def parseHour : List Char → Option (Nat × List Char)
  | a :: b :: rest =>
    match digitVal a, digitVal b with
    | some va, some vb =>
      if va = 2 ∧ vb ≤ 3 then some (20 + vb, rest)
      else if va ≤ 1 then some (va * 10 + vb, rest)
      else some (va, b :: rest)
    | some va, none => some (va, b :: rest)
    | none, _ => none
  | [a] => do
    let va ← digitVal a
    pure (va, [])
  | [] => none

/-- The `%M` directive of `strptime`: the regex `[0-5][0-9]|[0-9]`. -/
def parseMinute : List Char → Option (Nat × List Char)
  | a :: b :: rest =>
    match digitVal a, digitVal b with
    | some va, some vb =>
      if va ≤ 5 then some (va * 10 + vb, rest)
      else some (va, b :: rest)
    | some va, none => some (va, b :: rest)
    | none, _ => none
  | [a] => do
    let va ← digitVal a
    pure (va, [])
  | [] => none

/-- Consume one expected literal character. -/
def expectChar (c : Char) : List Char → Option (List Char)
  | [] => none
  | d :: rest => if d = c then some rest else none

/-- A parsed wall-clock time, as produced by
`datetime.strptime(s, "%Y-%m-%d %H:%M")`. -/
structure DT where
  y : Nat
  m : Nat
  d : Nat
  hh : Nat
  mm : Nat
deriving DecidableEq, Repr

/-- Gregorian leap-year rule used by `datetime`. -/
def leapYear (y : Nat) : Bool := (y % 4 = 0 && y % 100 != 0) || y % 400 = 0

/-- Number of days in a month, as validated by the `datetime`
constructor. -/
def daysInMonth (y m : Nat) : Nat :=
  if m = 2 then (if leapYear y then 29 else 28)
  else if m = 4 ∨ m = 6 ∨ m = 9 ∨ m = 11 then 30
  else 31

/-- Embedding of `datetime.strptime(s, "%Y-%m-%d %H:%M")`: `none`
models the `ValueError` raised on any string that does not fully match
the format or does not denote a valid calendar date. -/
def strptimeYmdHM (s : List Char) : Option DT := do
  let (y, s) ← parseYear s
  let s ← expectChar '-' s
  let (m, s) ← parseMonth s
  let s ← expectChar '-' s
  let (d, s) ← parseDay s
  let s ← expectChar ' ' s
  let (hh, s) ← parseHour s
  let s ← expectChar ':' s
  let (mm, s) ← parseMinute s
  if s = [] ∧ 1 ≤ y ∧ d ≤ daysInMonth y m then some ⟨y, m, d, hh, mm⟩ else none

/-- Comparison of two parsed times, mirroring `datetime` comparison:
lexicographic on (year, month, day, hour, minute). -/
def dtLe (a b : DT) : Bool :=
  decide (a.y < b.y ∨ (a.y = b.y ∧ (a.m < b.m ∨ (a.m = b.m ∧
    (a.d < b.d ∨ (a.d = b.d ∧ (a.hh < b.hh ∨ (a.hh = b.hh ∧ a.mm ≤ b.mm))))))))

/-- A primary-source (OneFootball) match record: the fields built by
`fetch_onefootball_matches`. -/
structure PrimRec where
  match_id : List Char
  home : List Char
  away : List Char
  competition : List Char
  kickoff : List Char
  home_logo : List Char
  away_logo : List Char
  home_score : List Char
  away_score : List Char
deriving DecidableEq, Repr

/-- An auxiliary-source record as consumed by the merge loop, which
reads only `src.get("home", "")`, `src.get("away", "")` and
`src.get("channels", [])`. -/
structure AuxRec where
  home : List Char
  away : List Char
  channels : List (List Char)
deriving DecidableEq, Repr

/-- A merged output record: the primary record with its resolved
channel list. -/
structure MergedMatch where
  base : PrimRec
  channels : List (List Char)
deriving DecidableEq, Repr

/-- The literal replacement channel list entry "Not specified". -/
def notSpecified : List Char := String.toList "Not specified"

/-- The channel-accumulation loop of `merge_matches`: walk the
auxiliary records in order and extend the accumulator with the
channels of every record whose teams match the primary record. -/
def collect_channels (nfkd : List Char → List Char)
    (ratioW ratioP : List Char → List Char → Nat)
    (om : PrimRec) : List AuxRec → List (List Char)
  | [] => []
  | src :: rest =>
    if teams_match nfkd ratioW ratioP om.home om.away src.home src.away then
      src.channels ++ collect_channels nfkd ratioW ratioP om rest
    else collect_channels nfkd ratioW ratioP om rest

/-- The deduplication loop of `merge_matches`: keep a channel only if
it is non-empty and its lowercase form has not been seen before. -/
def dedupAux (seen : List (List Char)) : List (List Char) → List (List Char)
  | [] => []
  | ch :: rest =>
    if ch ≠ [] ∧ lowerStr ch ∉ seen then
      ch :: dedupAux (lowerStr ch :: seen) rest
    else dedupAux seen rest

/-- Case-insensitive, order-preserving deduplication with empty
strings dropped, as performed on the accumulated channel list. -/
def dedupChannels (l : List (List Char)) : List (List Char) := dedupAux [] l

/-- The sort comparison of the post-pass
`merged.sort(key=lambda m: datetime.strptime(m["kickoff"], ...))`;
only evaluated on records whose kickoff parses. -/
def mergedLe (a b : MergedMatch) : Bool :=
  dtLe ((strptimeYmdHM a.base.kickoff).getD ⟨0, 0, 0, 0, 0⟩)
       ((strptimeYmdHM b.base.kickoff).getD ⟨0, 0, 0, 0, 0⟩)

/-- Insert into a sorted list, before the first element that `x` is
`le`-below-or-equal to (this placement makes the sort stable, like
Python's `list.sort`). -/
def insertLe (le : α → α → Bool) (x : α) : List α → List α
  | [] => [x]
  | y :: ys => if le x y then x :: y :: ys else y :: insertLe le x ys

/-- Stable sort by insertion; since Python's `list.sort` is also
stable, both produce the identical list for a total preorder `le`. -/
def sortLe (le : α → α → Bool) : List α → List α
  | [] => []
  | x :: xs => insertLe le x (sortLe le xs)

/-- Embedding of the merge pass of `merge_matches` (the fetching and
report-writing around it are I/O): drop banned primary records, give
each survivor the deduplicated channels of all team-matching auxiliary
records (or `["Not specified"]`), and sort by parsed kickoff.  The
three auxiliary sources are scanned in order wtm, then daddylive, then
allfootball.  The result is `none` when any emitted record's kickoff
fails to parse, modelling the uncaught `ValueError` of the sort key
that aborts the whole merge.  The body of the merge loop is split out
as `build_merged`: drop banned primary records and give each survivor
its deduplicated channel list (or `["Not specified"]`). -/
def build_merged (nfkd : List Char → List Char)
    (ratioW ratioP : List Char → List Char → Nat)
    (banned : List (List Char))
    (onefootball : List PrimRec) (auxs : List AuxRec) : List MergedMatch :=
  (onefootball.filter
      (fun om => ! is_banned_match banned om.home om.away om.competition)).map
    (fun om =>
      let clean := dedupChannels (collect_channels nfkd ratioW ratioP om auxs)
      { base := om, channels := if clean = [] then [notSpecified] else clean })

def merge_matches (nfkd : List Char → List Char)
    (ratioW ratioP : List Char → List Char → Nat)
    (banned : List (List Char))
    (onefootball : List PrimRec)
    (wtm daddylive allfootball : List AuxRec) : Option (List MergedMatch) :=
  let merged := build_merged nfkd ratioW ratioP banned onefootball
    (wtm ++ daddylive ++ allfootball)
  if merged.all (fun m => (strptimeYmdHM m.base.kickoff).isSome) then
    some (sortLe mergedLe merged)
  else none

/-! ### Concrete fixtures used in witnesses -/

/-- Constant-zero similarity score, a convenient concrete
instantiation of the rapidfuzz parameters. -/
def zeroRatio : List Char → List Char → Nat := fun _ _ => 0

/-- Build a primary record from plain strings (no id, logos or
scores). -/
def fixPrim (h a c k : String) : PrimRec :=
  ⟨[], String.toList h, String.toList a, String.toList c, String.toList k,
    [], [], [], []⟩

/-- Build an auxiliary record from plain strings. -/
def fixAux (h a : String) (chs : List String) : AuxRec :=
  ⟨String.toList h, String.toList a, chs.map String.toList⟩

def primArsenal : PrimRec := fixPrim "arsenal" "chelsea" "league" "2024-05-01 17:00"

def auxWomen : AuxRec := fixAux "Arsenal Women" "Chelsea Women" ["ESPN"]

def mergedArsenal : MergedMatch := ⟨primArsenal, [String.toList "ESPN"]⟩

def primK1 : PrimRec := fixPrim "aa" "bb" "cc" "2024-05-01 17:00"

def primK2 : PrimRec := fixPrim "dd" "ee" "ff" "2024-05-01 15:00"

def primK3 : PrimRec := fixPrim "gg" "hh" "ii" "2024-05-01 18:00"

/-- A merged record with no contributed channels. -/
def mergedOf (p : PrimRec) : MergedMatch := ⟨p, [notSpecified]⟩

def primBadKick : PrimRec := fixPrim "aa" "bb" "cc" "Unknown"

def primEmptyCh : PrimRec := fixPrim "aa" "bb" "cc" "2024-01-02 03:04"

def auxEmptyCh : AuxRec := fixAux "aa" "bb" ["", ""]

/-! ### Characterizations of the boolean string tests -/

theorem startsWith_iff (n h : List Char) :
    startsWith n h = true ↔ ∃ v, h = n ++ v := by
  induction n generalizing h with
  | nil => simp [startsWith]
  | cons a as ih =>
    cases h with
    | nil => simp [startsWith]
    | cons b bs =>
      simp only [startsWith, Bool.and_eq_true, beq_iff_eq, ih, List.cons_append,
        List.cons.injEq]
      constructor
      · rintro ⟨rfl, v, rfl⟩
        exact ⟨v, rfl, rfl⟩
      · rintro ⟨v, rfl, rfl⟩
        exact ⟨rfl, v, rfl⟩

theorem containsSub_iff (n h : List Char) :
    containsSub n h = true ↔ IsSubstring n h := by
  induction h with
  | nil =>
    simp only [containsSub, IsSubstring, List.isEmpty_iff]
    constructor
    · rintro rfl
      exact ⟨[], [], rfl⟩
    · rintro ⟨u, v, huv⟩
      rcases List.append_eq_nil.mp huv.symm with ⟨h1, h2⟩
      rcases List.append_eq_nil.mp h1 with ⟨_, h3⟩
      exact h3
  | cons c rest ih =>
    simp only [containsSub, Bool.or_eq_true, startsWith_iff, ih, IsSubstring]
    constructor
    · rintro (⟨v, hv⟩ | ⟨u, v, huv⟩)
      · exact ⟨[], v, by simp [hv]⟩
      · exact ⟨c :: u, v, by simp [huv]⟩
    · rintro ⟨u, v, huv⟩
      cases u with
      | nil => exact Or.inl ⟨v, by simpa using huv⟩
      | cons x u2 =>
        rw [List.cons_append, List.cons_append] at huv
        injection huv with h1 h2
        exact Or.inr ⟨u2, v, h2⟩

theorem names_equivalent_iff (nfkd : List Char → List Char)
    (rW rP : List Char → List Char → Nat) (n1 n2 : List Char) :
    names_equivalent nfkd rW rP n1 n2 = true ↔
      (normalize_team_name nfkd n1 ≠ [] ∧ normalize_team_name nfkd n2 ≠ [] ∧
        ((∃ t, t ∈ tokens (normalize_team_name nfkd n1) ∧
               t ∈ tokens (normalize_team_name nfkd n2)) ∨
         80 ≤ rW (normalize_team_name nfkd n1) (normalize_team_name nfkd n2) ∨
         80 ≤ rP (normalize_team_name nfkd n1) (normalize_team_name nfkd n2) ∨
         IsSubstring (normalize_team_name nfkd n1) (normalize_team_name nfkd n2) ∨
         IsSubstring (normalize_team_name nfkd n2) (normalize_team_name nfkd n1))) := by
  unfold names_equivalent
  set t1 := normalize_team_name nfkd n1 with ht1
  set t2 := normalize_team_name nfkd n2 with ht2
  by_cases hemp : t1 = [] ∨ t2 = []
  · simp only [hemp, if_true]
    constructor
    · intro h
      exact absurd h (by simp)
    · rintro ⟨hn1, hn2, _⟩
      rcases hemp with h | h
      · exact absurd h hn1
      · exact absurd h hn2
  · push_neg at hemp
    simp only [hemp.1, hemp.2, or_self, if_false, ne_eq, not_false_eq_true,
      true_and, eq_self_iff_true]
    by_cases htok : (tokens t1).any (fun t => decide (t ∈ tokens t2)) = true
    · rw [if_pos htok]
      simp only [List.any_eq_true, decide_eq_true_eq] at htok
      rcases htok with ⟨t, ht, ht2'⟩
      simp only [true_iff]
      exact Or.inl ⟨t, ht, ht2'⟩
    · rw [if_neg htok]
      simp only [List.any_eq_true, decide_eq_true_eq, not_exists, not_and] at htok
      by_cases hr : 80 ≤ rW t1 t2 ∨ 80 ≤ rP t1 t2
      · rw [if_pos hr]
        simp only [true_iff]
        rcases hr with h | h
        · exact Or.inr (Or.inl h)
        · exact Or.inr (Or.inr (Or.inl h))
      · rw [if_neg hr]
        push_neg at hr
        simp only [Bool.or_eq_true, containsSub_iff]
        constructor
        · rintro (h | h)
          · exact Or.inr (Or.inr (Or.inr (Or.inl h)))
          · exact Or.inr (Or.inr (Or.inr (Or.inr h)))
        · rintro (⟨t, ht, ht2'⟩ | h | h | h | h)
          · exact absurd ht2' (htok t ht)
          · omega
          · omega
          · exact Or.inl h
          · exact Or.inr h

theorem is_banned_iff (banned : List (List Char)) (home away competition : List Char) :
    is_banned_match banned home away competition = true ↔
      (lowerStr competition ∈ banned ∨
       IsSubstring womenStr (lowerStr competition) ∨
       IsSubstring nwslStr (lowerStr competition) ∨
       (∃ p ∈ bannedMarkers, IsSubstring p (lowerStr competition)) ∨
       IsSubstring womenStr (lowerStr home) ∨
       IsSubstring womenStr (lowerStr away)) := by
  unfold is_banned_match
  set lname := lowerStr competition
  by_cases h1 : banned.contains lname
  · simp only [h1, if_true, true_iff]
    exact Or.inl (by simpa using h1)
  · rw [if_neg h1]
    have h1' : lname ∉ banned := by
      intro hmem
      exact h1 (by simpa using hmem)
    by_cases h2 : (containsSub womenStr lname || containsSub nwslStr lname) = true
    · rw [if_pos h2]
      simp only [Bool.or_eq_true, containsSub_iff] at h2
      simp only [true_iff]
      rcases h2 with h | h
      · exact Or.inr (Or.inl h)
      · exact Or.inr (Or.inr (Or.inl h))
    · rw [if_neg h2]
      simp only [Bool.or_eq_true, containsSub_iff, not_or] at h2
      by_cases h3 : bannedMarkers.any (fun p => containsSub p lname) = true
      · rw [if_pos h3]
        simp only [List.any_eq_true, containsSub_iff] at h3
        simp only [true_iff]
        exact Or.inr (Or.inr (Or.inr (Or.inl h3)))
      · rw [if_neg h3]
        simp only [List.any_eq_true, containsSub_iff, not_exists, not_and] at h3
        by_cases h4 : (containsSub womenStr (lowerStr home) ||
            containsSub womenStr (lowerStr away)) = true
        · rw [if_pos h4]
          simp only [Bool.or_eq_true, containsSub_iff] at h4
          simp only [true_iff]
          rcases h4 with h | h
          · exact Or.inr (Or.inr (Or.inr (Or.inr (Or.inl h))))
          · exact Or.inr (Or.inr (Or.inr (Or.inr (Or.inr h))))
        · rw [if_neg h4]
          simp only [Bool.or_eq_true, containsSub_iff, not_or] at h4
          constructor
          · intro h
            exact absurd h (by simp)
          · rintro (h | h | h | ⟨p, hp, hsub⟩ | h | h)
            · exact (h1' h).elim
            · exact (h2.1 h).elim
            · exact (h2.2 h).elim
            · exact (h3 p hp hsub).elim
            · exact (h4.1 h).elim
            · exact (h4.2 h).elim

/-! ### Tokenization lemmas -/

theorem tokensAux_append_word (t : List Char) (ht : ∀ c ∈ t, c ≠ ' ') :
    ∀ cur rest, tokensAux cur (t ++ rest) = tokensAux (t.reverse ++ cur) rest := by
  induction t with
  | nil => intro cur rest; simp
  | cons a t ih =>
    intro cur rest
    have ha : a ≠ ' ' := ht a (List.mem_cons_self a t)
    have ht' : ∀ c ∈ t, c ≠ ' ' := fun c hc => ht c (List.mem_cons_of_mem a hc)
    have step : tokensAux cur ((a :: t) ++ rest) = tokensAux (a :: cur) (t ++ rest) := by
      simp [tokensAux, ha]
    rw [step, ih ht' (a :: cur) rest]
    congr 1
    simp

theorem tokens_join_good (ts : List (List Char))
    (hts : ∀ t ∈ ts, t ≠ [] ∧ ∀ c ∈ t, c ≠ ' ') :
    tokens (joinTokens ts) = ts := by
  induction ts with
  | nil => rfl
  | cons t ts ih =>
    have ht := hts t (List.mem_cons_self t ts)
    have hts' : ∀ u ∈ ts, u ≠ [] ∧ ∀ c ∈ u, c ≠ ' ' :=
      fun u hu => hts u (List.mem_cons_of_mem t hu)
    show tokensAux [] (joinTokens (t :: ts)) = t :: ts
    cases ts with
    | nil =>
      have hj : joinTokens [t] = t ++ [] := by simp [joinTokens]
      rw [hj, tokensAux_append_word t ht.2 [] []]
      simp [tokensAux, ht.1]
    | cons u us =>
      have hj : joinTokens (t :: u :: us) = t ++ (' ' :: joinTokens (u :: us)) := by
        simp [joinTokens]
      rw [hj, tokensAux_append_word t ht.2 [] (' ' :: joinTokens (u :: us))]
      have hstep : tokensAux (t.reverse ++ []) (' ' :: joinTokens (u :: us)) =
          t :: tokensAux [] (joinTokens (u :: us)) := by
        simp [tokensAux, ht.1]
      rw [hstep]
      exact congrArg (t :: ·) (ih hts')

theorem tokensAux_mem_good (s : List Char) :
    ∀ cur, (∀ c ∈ cur, c ≠ ' ') → ∀ t ∈ tokensAux cur s,
      t ≠ [] ∧ ∀ c ∈ t, (c ∈ cur ∨ c ∈ s) ∧ c ≠ ' ' := by
  induction s with
  | nil =>
    intro cur hcur t htmem
    rw [tokensAux] at htmem
    by_cases hc : cur = []
    · rw [if_pos hc] at htmem
      exact absurd htmem (List.not_mem_nil t)
    · rw [if_neg hc] at htmem
      rcases List.mem_singleton.mp htmem with rfl
      refine ⟨by simpa using hc, fun c hc2 => ?_⟩
      have hc3 : c ∈ cur := List.mem_reverse.mp hc2
      exact ⟨Or.inl hc3, hcur c hc3⟩
  | cons a s ih =>
    intro cur hcur t htmem
    rw [tokensAux] at htmem
    by_cases ha : a = ' '
    · rw [if_pos ha] at htmem
      by_cases hc : cur = []
      · rw [if_pos hc] at htmem
        have := ih [] (by simp) t htmem
        exact ⟨this.1, fun c hcm => ⟨Or.inr (List.mem_cons_of_mem a
          (((this.2 c hcm).1).resolve_left (List.not_mem_nil c))), (this.2 c hcm).2⟩⟩
      · rw [if_neg hc] at htmem
        rcases List.mem_cons.mp htmem with rfl | hmem
        · refine ⟨by simpa using hc, fun c hc2 => ?_⟩
          have hc3 : c ∈ cur := List.mem_reverse.mp hc2
          exact ⟨Or.inl hc3, hcur c hc3⟩
        · have := ih [] (by simp) t hmem
          exact ⟨this.1, fun c hcm => ⟨Or.inr (List.mem_cons_of_mem a
            (((this.2 c hcm).1).resolve_left (List.not_mem_nil c))), (this.2 c hcm).2⟩⟩
    · rw [if_neg ha] at htmem
      have hcur' : ∀ c ∈ a :: cur, c ≠ ' ' := by
        intro c hc
        rcases List.mem_cons.mp hc with rfl | hc2
        · exact ha
        · exact hcur c hc2
      have := ih (a :: cur) hcur' t htmem
      refine ⟨this.1, fun c hcm => ?_⟩
      rcases this.2 c hcm with ⟨hin, hne⟩
      rcases hin with hin | hin
      · rcases List.mem_cons.mp hin with rfl | hin2
        · exact ⟨Or.inr (List.mem_cons_self c s), hne⟩
        · exact ⟨Or.inl hin2, hne⟩
      · exact ⟨Or.inr (List.mem_cons_of_mem a hin), hne⟩

theorem tokens_mem_good (s : List Char) :
    ∀ t ∈ tokens s, t ≠ [] ∧ ∀ c ∈ t, c ∈ s ∧ c ≠ ' ' := by
  intro t ht
  have := tokensAux_mem_good s [] (by simp) t ht
  exact ⟨this.1, fun c hc =>
    ⟨((this.2 c hc).1).resolve_left (List.not_mem_nil c), (this.2 c hc).2⟩⟩

theorem mem_joinTokens (ts : List (List Char)) (c : Char) (hc : c ∈ joinTokens ts) :
    c = ' ' ∨ ∃ t ∈ ts, c ∈ t := by
  induction ts with
  | nil => exact absurd hc (List.not_mem_nil c)
  | cons t ts ih =>
    rw [joinTokens] at hc
    rcases List.mem_append.mp hc with h | h
    · exact Or.inr ⟨t, List.mem_cons_self t ts, h⟩
    · cases ts with
      | nil => simp at h
      | cons u us =>
        simp only [List.isEmpty_cons, if_neg] at h
        rcases List.mem_cons.mp h with rfl | h2
        · exact Or.inl rfl
        · rcases ih h2 with h3 | ⟨v, hv, hcv⟩
          · exact Or.inl h3
          · exact Or.inr ⟨v, List.mem_cons_of_mem t hv, hcv⟩

theorem tokensAux_collapseSpaces (s : List Char) :
    ∀ cur, tokensAux cur (collapseSpaces s) = tokensAux cur s := by
  induction s with
  | nil => intro cur; rfl
  | cons c rest ih =>
    intro cur
    rw [collapseSpaces]
    by_cases h : c = ' ' ∧ rest.head? = some ' '
    · rw [if_pos h]
      rcases h with ⟨rfl, hhead⟩
      cases rest with
      | nil => simp at hhead
      | cons d rest2 =>
        have hd : d = ' ' := by simpa using hhead
        subst hd
        rw [ih cur]
        show tokensAux cur (' ' :: rest2) = tokensAux cur (' ' :: ' ' :: rest2)
        by_cases hc : cur = []
        · subst hc
          simp [tokensAux]
        · simp [tokensAux, if_neg hc]
    · rw [if_neg h]
      by_cases hc : c = ' '
      · subst hc
        by_cases hcur : cur = []
        · subst hcur
          simp [tokensAux, ih]
        · simp [tokensAux, hcur, ih]
      · simp [tokensAux, hc, ih (c :: cur)]

theorem tokens_dropWhile_spaces (s : List Char) :
    tokensAux [] (s.dropWhile (fun c => c = ' ')) = tokensAux [] s := by
  induction s with
  | nil => rfl
  | cons c rest ih =>
    by_cases hc : c = ' '
    · subst hc
      rw [List.dropWhile_cons, if_pos (by simp), ih]
      simp [tokensAux]
    · rw [List.dropWhile_cons, if_neg (by simpa using hc)]

theorem tokensAux_all_spaces (w : List Char) (hw : ∀ c ∈ w, c = ' ') :
    ∀ cur, tokensAux cur w = tokensAux cur [] := by
  induction w with
  | nil => intro cur; rfl
  | cons c rest ih =>
    intro cur
    have hc : c = ' ' := hw c (List.mem_cons_self c rest)
    have hw' : ∀ c ∈ rest, c = ' ' := fun c hc => hw c (List.mem_cons_of_mem _ hc)
    subst hc
    by_cases hcur : cur = []
    · subst hcur
      simp [tokensAux, ih hw']
    · simp [tokensAux, hcur, ih hw']

theorem tokensAux_append_spaces (s : List Char) (w : List Char)
    (hw : ∀ c ∈ w, c = ' ') : ∀ cur, tokensAux cur (s ++ w) = tokensAux cur s := by
  induction s with
  | nil =>
    intro cur
    rw [List.nil_append, tokensAux_all_spaces w hw]
  | cons c rest ih =>
    intro cur
    rw [List.cons_append, tokensAux, tokensAux]
    by_cases hc : c = ' '
    · rw [if_pos hc, if_pos hc]
      by_cases hcur : cur = []
      · rw [if_pos hcur, if_pos hcur, ih]
      · rw [if_neg hcur, if_neg hcur, ih]
    · rw [if_neg hc, if_neg hc, ih]

theorem tokens_rstrip (r : List Char) :
    tokensAux [] ((r.reverse.dropWhile (fun c => c = ' ')).reverse) = tokensAux [] r := by
  have hsplit : (r.reverse.dropWhile (fun c => c = ' ')).reverse ++
      (r.reverse.takeWhile (fun c => c = ' ')).reverse = r := by
    rw [← List.reverse_append, List.takeWhile_append_dropWhile, List.reverse_reverse]
  have hw : ∀ c ∈ (r.reverse.takeWhile (fun c => c = ' ')).reverse, c = ' ' := by
    intro c hc
    have : c ∈ r.reverse.takeWhile (fun c => c = ' ') := List.mem_reverse.mp hc
    simpa using List.mem_takeWhile_imp this
  calc tokensAux [] ((r.reverse.dropWhile (fun c => c = ' ')).reverse)
      = tokensAux [] ((r.reverse.dropWhile (fun c => c = ' ')).reverse ++
          (r.reverse.takeWhile (fun c => c = ' ')).reverse) :=
        (tokensAux_append_spaces _ _ hw []).symm
    _ = tokensAux [] r := by rw [hsplit]

theorem tokens_strip_collapse (s : List Char) :
    tokens (stripSpaces (collapseSpaces s)) = tokens s := by
  unfold tokens stripSpaces
  rw [tokens_rstrip, tokens_dropWhile_spaces]
  exact tokensAux_collapseSpaces s []

/-! ### Normalization: characterization and idempotence -/

/-- The one property of Unicode NFKD decomposition the development
relies on: it leaves pure-ASCII strings unchanged. -/
def AsciiId (nfkd : List Char → List Char) : Prop :=
  ∀ s, (∀ c ∈ s, isAsciiChar c = true) → nfkd s = s

theorem normalize_eq_join_filter_tokens (nfkd : List Char → List Char) (s : List Char) :
    normalize_team_name nfkd s =
      joinTokens ((tokens (replaceNonAlpha (lowerStr ((nfkd s).filter isAsciiChar)))).filter
        (fun t => decide (t ∉ stopwords))) := by
  unfold normalize_team_name
  rw [tokens_strip_collapse]

theorem replaceNonAlpha_mem (s : List Char) (c : Char) (hc : c ∈ replaceNonAlpha s) :
    isLowerAlpha c = true ∨ c = ' ' := by
  unfold replaceNonAlpha at hc
  rcases List.mem_map.mp hc with ⟨x, _, hx⟩
  by_cases h : isLowerAlpha x = true ∨ x = ' '
  · rw [if_pos h] at hx
    subst hx
    exact h
  · rw [if_neg h] at hx
    exact Or.inr hx.symm

theorem isLowerAlpha_ne_space (c : Char) (h : isLowerAlpha c = true) : c ≠ ' ' := by
  intro hc
  subst hc
  simp [isLowerAlpha] at h

theorem isLowerAlpha_isAscii (c : Char) (h : isLowerAlpha c = true) :
    isAsciiChar c = true := by
  simp only [isLowerAlpha, Bool.and_eq_true, decide_eq_true_eq] at h
  simp only [isAsciiChar, decide_eq_true_eq]
  omega

theorem lowerChar_fixed (c : Char) (h : isLowerAlpha c = true ∨ c = ' ') :
    lowerChar c = c := by
  unfold lowerChar
  rcases h with h | rfl
  · simp only [isLowerAlpha, Bool.and_eq_true, decide_eq_true_eq] at h
    rw [if_neg]
    omega
  · rw [if_neg]
    simp

/-- Fixed-point lemma: a string that is a space-join of non-empty,
all-lowercase-alphabetic, non-stopword tokens is left unchanged by
`normalize_team_name`. -/
theorem normalize_fixed (nfkd : List Char → List Char) (hnf : AsciiId nfkd)
    (ts : List (List Char))
    (hgood : ∀ t ∈ ts, t ≠ [] ∧ ∀ c ∈ t, isLowerAlpha c = true)
    (hstop : ∀ t ∈ ts, t ∉ stopwords) :
    normalize_team_name nfkd (joinTokens ts) = joinTokens ts := by
  have hchars : ∀ c ∈ joinTokens ts, isLowerAlpha c = true ∨ c = ' ' := by
    intro c hc
    rcases mem_joinTokens ts c hc with rfl | ⟨t, ht, hct⟩
    · exact Or.inr rfl
    · exact Or.inl ((hgood t ht).2 c hct)
  have hascii : ∀ c ∈ joinTokens ts, isAsciiChar c = true := by
    intro c hc
    rcases hchars c hc with h | rfl
    · exact isLowerAlpha_isAscii c h
    · rfl
  rw [normalize_eq_join_filter_tokens, hnf (joinTokens ts) hascii]
  rw [List.filter_eq_self.mpr hascii]
  have hlower : lowerStr (joinTokens ts) = joinTokens ts := by
    unfold lowerStr
    rw [List.map_congr_left (fun c hc => lowerChar_fixed c (hchars c hc))]
    exact List.map_id (joinTokens ts)
  rw [hlower]
  have hrepl : replaceNonAlpha (joinTokens ts) = joinTokens ts := by
    unfold replaceNonAlpha
    rw [List.map_congr_left (fun c hc => if_pos (by
      rcases hchars c hc with h | rfl
      · exact Or.inl h
      · exact Or.inr rfl))]
    exact List.map_id (joinTokens ts)
  rw [hrepl]
  rw [tokens_join_good ts (fun t ht => ⟨(hgood t ht).1,
    fun c hc => isLowerAlpha_ne_space c ((hgood t ht).2 c hc)⟩)]
  rw [List.filter_eq_self.mpr (fun t ht => decide_eq_true (hstop t ht))]

theorem normalize_output_good (nfkd : List Char → List Char) (x : List Char) :
    ∃ ts, normalize_team_name nfkd x = joinTokens ts ∧
      (∀ t ∈ ts, t ≠ [] ∧ ∀ c ∈ t, isLowerAlpha c = true) ∧
      (∀ t ∈ ts, t ∉ stopwords) := by
  refine ⟨(tokens (replaceNonAlpha (lowerStr ((nfkd x).filter isAsciiChar)))).filter
    (fun t => decide (t ∉ stopwords)), normalize_eq_join_filter_tokens nfkd x, ?_, ?_⟩
  · intro t ht
    have htok := tokens_mem_good _ t (List.mem_of_mem_filter ht)
    refine ⟨htok.1, fun c hc => ?_⟩
    have hmem := (htok.2 c hc).1
    have hne := (htok.2 c hc).2
    rcases replaceNonAlpha_mem _ c hmem with h | rfl
    · exact h
    · exact absurd rfl hne
  · intro t ht
    have := List.of_mem_filter ht
    simpa using this

/-! ### Claim C1 -/

/-- C1: for all strings n1, n2, `names_equivalent` returns false
whenever either normalized form is empty, and otherwise returns true
exactly when the two normalized forms share at least one common token,
or the fuzzy whole-string ratio is ≥ 80 or the fuzzy partial ratio is
≥ 80, or one normalized string is a literal substring of the other. -/
theorem names_equivalent_correct (nfkd : List Char → List Char)
    (rW rP : List Char → List Char → Nat) (n1 n2 : List Char) :
    names_equivalent nfkd rW rP n1 n2 = true ↔
      (normalize_team_name nfkd n1 ≠ [] ∧ normalize_team_name nfkd n2 ≠ [] ∧
        ((∃ t, t ∈ tokens (normalize_team_name nfkd n1) ∧
               t ∈ tokens (normalize_team_name nfkd n2)) ∨
         80 ≤ rW (normalize_team_name nfkd n1) (normalize_team_name nfkd n2) ∨
         80 ≤ rP (normalize_team_name nfkd n1) (normalize_team_name nfkd n2) ∨
         IsSubstring (normalize_team_name nfkd n1) (normalize_team_name nfkd n2) ∨
         IsSubstring (normalize_team_name nfkd n2) (normalize_team_name nfkd n1))) :=
  names_equivalent_iff nfkd rW rP n1 n2

/-! ### Claim C2 -/

/-- C2: `teams_match` is the conjunction of home-vs-home and
away-vs-away equivalence, never swapped; and there are inputs on which
the straight call returns true while the swapped-side call returns
false (witnessed at home "A", away "B", provided the fuzzy scores of
the distinct normalized names "a", "b" are below the 80 threshold, as
the rapidfuzz scores of these two one-letter strings are). -/
theorem teams_match_directional (nfkd : List Char → List Char)
    (rW rP : List Char → List Char → Nat) :
    (∀ h1 a1 h2 a2, teams_match nfkd rW rP h1 a1 h2 a2 =
      (names_equivalent nfkd rW rP h1 h2 && names_equivalent nfkd rW rP a1 a2)) ∧
    (AsciiId nfkd →
      rW (String.toList "a") (String.toList "b") < 80 →
      rP (String.toList "a") (String.toList "b") < 80 →
      teams_match nfkd rW rP (String.toList "A") (String.toList "B")
        (String.toList "A") (String.toList "B") = true ∧
      teams_match nfkd rW rP (String.toList "A") (String.toList "B")
        (String.toList "B") (String.toList "A") = false) := by
  constructor
  · intro h1 a1 h2 a2
    rfl
  · intro hnf hrW hrP
    have hA : normalize_team_name nfkd (String.toList "A") = String.toList "a" := by
      unfold normalize_team_name
      rw [hnf (String.toList "A") (by decide)]
      rfl
    have hB : normalize_team_name nfkd (String.toList "B") = String.toList "b" := by
      unfold normalize_team_name
      rw [hnf (String.toList "B") (by decide)]
      rfl
    have hAB : names_equivalent nfkd rW rP (String.toList "A") (String.toList "B") = false := by
      unfold names_equivalent
      rw [hA, hB]
      have h1 : ¬(String.toList "a" = [] ∨ String.toList "b" = []) := by decide
      rw [if_neg h1]
      have h2 : ¬((tokens (String.toList "a")).any
          (fun t => decide (t ∈ tokens (String.toList "b"))) = true) := by decide
      rw [if_neg h2]
      have h3 : ¬(80 ≤ rW (String.toList "a") (String.toList "b") ∨
          80 ≤ rP (String.toList "a") (String.toList "b")) := by omega
      rw [if_neg h3]
      decide
    have hAA : names_equivalent nfkd rW rP (String.toList "A") (String.toList "A") = true := by
      unfold names_equivalent
      rw [hA]
      have h1 : ¬(String.toList "a" = [] ∨ String.toList "a" = []) := by decide
      rw [if_neg h1]
      have h2 : (tokens (String.toList "a")).any
          (fun t => decide (t ∈ tokens (String.toList "a"))) = true := by decide
      rw [if_pos h2]
    have hBB : names_equivalent nfkd rW rP (String.toList "B") (String.toList "B") = true := by
      unfold names_equivalent
      rw [hB]
      have h1 : ¬(String.toList "b" = [] ∨ String.toList "b" = []) := by decide
      rw [if_neg h1]
      have h2 : (tokens (String.toList "b")).any
          (fun t => decide (t ∈ tokens (String.toList "b"))) = true := by decide
      rw [if_pos h2]
    constructor
    · unfold teams_match
      rw [hAA, hBB]
      rfl
    · unfold teams_match
      rw [hAB]
      rfl

/-- Witness for C2: with the identity NFKD map and the constant-zero
similarity scores, matching same sides succeeds and swapped sides
fails on ("A","B"). -/
theorem teams_match_directional_witness :
    AsciiId id ∧
    (fun (_ _ : List Char) => 0) (String.toList "a") (String.toList "b") < 80 ∧
    (teams_match id (fun _ _ => 0) (fun _ _ => 0) (String.toList "A") (String.toList "B")
      (String.toList "A") (String.toList "B") = true ∧
     teams_match id (fun _ _ => 0) (fun _ _ => 0) (String.toList "A") (String.toList "B")
      (String.toList "B") (String.toList "A") = false) :=
  ⟨fun _ _ => rfl, by decide,
    (teams_match_directional id (fun _ _ => 0) (fun _ _ => 0)).2
      (fun _ _ => rfl) (by decide) (by decide)⟩

/-! ### Claim C3 -/

/-- C3: normalization is idempotent — normalizing an
already-normalized name yields the same string (for every NFKD map
that is the identity on ASCII, which the real one is). -/
theorem normalize_team_name_idem (nfkd : List Char → List Char) (hnf : AsciiId nfkd)
    (x : List Char) :
    normalize_team_name nfkd (normalize_team_name nfkd x) = normalize_team_name nfkd x := by
  obtain ⟨ts, heq, hgood, hstop⟩ := normalize_output_good nfkd x
  rw [heq]
  exact normalize_fixed nfkd hnf ts hgood hstop

/-- Witness for C3 at a concrete input. -/
theorem normalize_team_name_idem_witness :
    AsciiId id ∧
    normalize_team_name id (normalize_team_name id
        (String.toList "Manchester United FC")) =
      normalize_team_name id (String.toList "Manchester United FC") :=
  ⟨fun _ _ => rfl, normalize_team_name_idem id (fun _ _ => rfl) _⟩

/-! ### Claim C4 -/

/-- C4: `is_banned_match` returns true exactly when, case-insensitively,
the competition equals an entry of the banned-tournament set, or the
competition contains "women" or "nwsl", or the competition contains one
of the age-grade/reserve markers, or either team name contains "women";
false otherwise. -/
theorem is_banned_match_correct (banned : List (List Char))
    (home away competition : List Char) :
    is_banned_match banned home away competition = true ↔
      (lowerStr competition ∈ banned ∨
       IsSubstring womenStr (lowerStr competition) ∨
       IsSubstring nwslStr (lowerStr competition) ∨
       (∃ p ∈ bannedMarkers, IsSubstring p (lowerStr competition)) ∨
       IsSubstring womenStr (lowerStr home) ∨
       IsSubstring womenStr (lowerStr away)) :=
  is_banned_iff banned home away competition

/-! ### Sorting lemmas -/

theorem insertLe_perm (le : α → α → Bool) (x : α) (l : List α) :
    (insertLe le x l).Perm (x :: l) := by
  induction l with
  | nil => exact List.Perm.refl _
  | cons y ys ih =>
    rw [insertLe]
    by_cases h : le x y
    · rw [if_pos h]
    · rw [if_neg h]
      exact (List.Perm.cons y ih).trans (List.Perm.swap x y ys)

theorem sortLe_perm (le : α → α → Bool) (l : List α) : (sortLe le l).Perm l := by
  induction l with
  | nil => exact List.Perm.refl _
  | cons x xs ih =>
    rw [sortLe]
    exact (insertLe_perm le x _).trans (List.Perm.cons x ih)

theorem insertLe_pairwise (le : α → α → Bool)
    (htot : ∀ a b, le a b = true ∨ le b a = true)
    (htrans : ∀ a b c, le a b = true → le b c = true → le a c = true)
    (x : α) (l : List α) (hl : l.Pairwise (fun a b => le a b = true)) :
    (insertLe le x l).Pairwise (fun a b => le a b = true) := by
  induction l with
  | nil => simp [insertLe]
  | cons y ys ih =>
    rw [insertLe]
    rcases List.pairwise_cons.mp hl with ⟨hy, hys⟩
    by_cases h : le x y
    · rw [if_pos h]
      refine List.pairwise_cons.mpr ⟨?_, hl⟩
      intro z hz
      rcases List.mem_cons.mp hz with rfl | hz2
      · exact h
      · exact htrans x y z h (hy z hz2)
    · rw [if_neg h]
      refine List.pairwise_cons.mpr ⟨?_, ih hys⟩
      intro z hz
      have hz3 := (insertLe_perm le x ys).mem_iff.mp hz
      rcases List.mem_cons.mp hz3 with rfl | hz4
      · rcases htot z y with h2 | h2
        · exact absurd h2 h
        · exact h2
      · exact hy z hz4

theorem sortLe_pairwise (le : α → α → Bool)
    (htot : ∀ a b, le a b = true ∨ le b a = true)
    (htrans : ∀ a b c, le a b = true → le b c = true → le a c = true)
    (l : List α) : (sortLe le l).Pairwise (fun a b => le a b = true) := by
  induction l with
  | nil => simp [sortLe]
  | cons x xs ih => exact insertLe_pairwise le htot htrans x _ ih

theorem dtLe_total (a b : DT) : dtLe a b = true ∨ dtLe b a = true := by
  simp only [dtLe, decide_eq_true_eq]
  omega

theorem dtLe_trans (a b c : DT) (h1 : dtLe a b = true) (h2 : dtLe b c = true) :
    dtLe a c = true := by
  simp only [dtLe, decide_eq_true_eq] at h1 h2 ⊢
  omega

theorem mergedLe_total (a b : MergedMatch) : mergedLe a b = true ∨ mergedLe b a = true :=
  dtLe_total _ _

theorem mergedLe_trans (a b c : MergedMatch) (h1 : mergedLe a b = true)
    (h2 : mergedLe b c = true) : mergedLe a c = true :=
  dtLe_trans _ _ _ h1 h2

/-! ### Deduplication lemmas -/

theorem dedupAux_sublist (l : List (List Char)) :
    ∀ seen, (dedupAux seen l).Sublist l := by
  induction l with
  | nil => intro seen; exact List.Sublist.refl []
  | cons x rest ih =>
    intro seen
    rw [dedupAux]
    by_cases h : x ≠ [] ∧ lowerStr x ∉ seen
    · rw [if_pos h]
      exact List.Sublist.cons₂ x (ih _)
    · rw [if_neg h]
      exact List.Sublist.cons x (ih seen)

theorem dedupAux_filter_of_seen (l : List (List Char)) (ch : List Char) :
    ∀ seen, lowerStr ch ∈ seen →
      (dedupAux seen l).filter (fun c => decide (lowerStr c = lowerStr ch)) = [] := by
  induction l with
  | nil => intro seen _; rfl
  | cons x rest ih =>
    intro seen hseen
    rw [dedupAux]
    by_cases h : x ≠ [] ∧ lowerStr x ∉ seen
    · rw [if_pos h]
      have hne : lowerStr x ≠ lowerStr ch := by
        intro heq
        exact h.2 (heq ▸ hseen)
      rw [List.filter_cons_of_neg (by simpa using hne)]
      exact ih (lowerStr x :: seen) (List.mem_cons_of_mem _ hseen)
    · rw [if_neg h]
      exact ih seen hseen

theorem dedupAux_filter_first (l : List (List Char)) (ch : List Char) (hch : ch ≠ []) :
    ∀ seen, lowerStr ch ∉ seen → ch ∈ l →
      (dedupAux seen l).filter (fun c => decide (lowerStr c = lowerStr ch)) =
        [(l.filter (fun c => decide (lowerStr c = lowerStr ch))).headI] := by
  induction l with
  | nil => intro seen _ hmem; exact absurd hmem (List.not_mem_nil ch)
  | cons x rest ih =>
    intro seen hseen hmem
    rw [dedupAux]
    by_cases hx : lowerStr x = lowerStr ch
    · have hxne : x ≠ [] := by
        intro hxe
        subst hxe
        have : lowerStr ch = [] := hx.symm
        rcases ch with _ | ⟨c, cs⟩
        · exact hch rfl
        · simp [lowerStr] at this
      have hxseen : lowerStr x ∉ seen := by rw [hx]; exact hseen
      rw [if_pos ⟨hxne, hxseen⟩]
      rw [List.filter_cons_of_pos (by simpa using hx)]
      rw [dedupAux_filter_of_seen rest ch (lowerStr x :: seen)
        (by rw [hx]; exact List.mem_cons_self _ _)]
      rw [List.filter_cons_of_pos (by simpa using hx)]
      rfl
    · have hmem2 : ch ∈ rest := by
        rcases List.mem_cons.mp hmem with rfl | h2
        · exact absurd rfl hx
        · exact h2
      rw [List.filter_cons_of_neg (by simpa using hx)]
      by_cases h : x ≠ [] ∧ lowerStr x ∉ seen
      · rw [if_pos h]
        rw [List.filter_cons_of_neg (by simpa using hx)]
        exact ih (lowerStr x :: seen)
          (by
            intro hm
            rcases List.mem_cons.mp hm with heq | hm2
            · exact hx heq.symm
            · exact hseen hm2) hmem2
      · rw [if_neg h]
        exact ih seen hseen hmem2

theorem dedupAux_not_mem_nil (l : List (List Char)) :
    ∀ seen, ([] : List Char) ∉ dedupAux seen l := by
  induction l with
  | nil => intro seen; exact List.not_mem_nil []
  | cons x rest ih =>
    intro seen
    rw [dedupAux]
    by_cases h : x ≠ [] ∧ lowerStr x ∉ seen
    · rw [if_pos h]
      intro hmem
      rcases List.mem_cons.mp hmem with heq | hm
      · exact h.1 heq.symm
      · exact ih _ hm
    · rw [if_neg h]
      exact ih seen

theorem dedupAux_all_nil (l : List (List Char)) (hl : ∀ ch ∈ l, ch = []) :
    ∀ seen, dedupAux seen l = [] := by
  induction l with
  | nil => intro seen; rfl
  | cons x rest ih =>
    intro seen
    have hx : x = [] := hl x (List.mem_cons_self x rest)
    rw [dedupAux, if_neg (by simp [hx])]
    exact ih (fun ch hch => hl ch (List.mem_cons_of_mem x hch)) seen

theorem dedup_mem_lower (l : List (List Char)) (ch : List Char)
    (hmem : ch ∈ l) (hch : ch ≠ []) :
    ∃ ch2 ∈ dedupChannels l, lowerStr ch2 = lowerStr ch := by
  have h := dedupAux_filter_first l ch hch [] (List.not_mem_nil _) hmem
  have hhead : (l.filter (fun c => decide (lowerStr c = lowerStr ch))).headI ∈
      (dedupChannels l).filter (fun c => decide (lowerStr c = lowerStr ch)) := by
    rw [show (dedupChannels l).filter (fun c => decide (lowerStr c = lowerStr ch)) =
      [(l.filter (fun c => decide (lowerStr c = lowerStr ch))).headI] from h]
    exact List.mem_singleton.mpr rfl
  refine ⟨_, List.mem_of_mem_filter hhead, ?_⟩
  have := List.of_mem_filter hhead
  simpa using this

/-! ### Merge lemmas -/

theorem mem_collect_channels (nfkd : List Char → List Char)
    (rW rP : List Char → List Char → Nat) (om : PrimRec) (auxs : List AuxRec)
    (a : AuxRec) (ha : a ∈ auxs)
    (hmatch : teams_match nfkd rW rP om.home om.away a.home a.away = true)
    (ch : List Char) (hch : ch ∈ a.channels) :
    ch ∈ collect_channels nfkd rW rP om auxs := by
  induction auxs with
  | nil => exact absurd ha (List.not_mem_nil a)
  | cons s rest ih =>
    rw [collect_channels]
    rcases List.mem_cons.mp ha with rfl | ha2
    · rw [if_pos hmatch]
      exact List.mem_append.mpr (Or.inl hch)
    · by_cases h : teams_match nfkd rW rP om.home om.away s.home s.away
      · rw [if_pos h]
        exact List.mem_append.mpr (Or.inr (ih ha2))
      · rw [if_neg h]
        exact ih ha2

theorem mem_build_merged (nfkd : List Char → List Char)
    (rW rP : List Char → List Char → Nat) (banned : List (List Char))
    (onefootball : List PrimRec) (auxs : List AuxRec) (m : MergedMatch)
    (hm : m ∈ build_merged nfkd rW rP banned onefootball auxs) :
    m.base ∈ onefootball ∧
    is_banned_match banned m.base.home m.base.away m.base.competition = false ∧
    m.channels =
      (if dedupChannels (collect_channels nfkd rW rP m.base auxs) = []
       then [notSpecified]
       else dedupChannels (collect_channels nfkd rW rP m.base auxs)) := by
  unfold build_merged at hm
  rcases List.mem_map.mp hm with ⟨om, homf, heq⟩
  subst heq
  refine ⟨List.mem_of_mem_filter homf, ?_, rfl⟩
  have := List.of_mem_filter homf
  simpa using this

theorem build_merged_mem_of (nfkd : List Char → List Char)
    (rW rP : List Char → List Char → Nat) (banned : List (List Char))
    (onefootball : List PrimRec) (auxs : List AuxRec) (om : PrimRec)
    (hom : om ∈ onefootball)
    (hnb : is_banned_match banned om.home om.away om.competition = false) :
    ∃ m ∈ build_merged nfkd rW rP banned onefootball auxs, m.base = om := by
  unfold build_merged
  refine ⟨_, List.mem_map.mpr ⟨om, List.mem_filter.mpr ⟨hom, by simp [hnb]⟩, rfl⟩, rfl⟩

theorem merge_matches_some_parts (nfkd : List Char → List Char)
    (rW rP : List Char → List Char → Nat) (banned : List (List Char))
    (onefootball : List PrimRec) (wtm daddylive allfootball : List AuxRec)
    (out : List MergedMatch)
    (hmerge : merge_matches nfkd rW rP banned onefootball wtm daddylive allfootball =
      some out) :
    out = sortLe mergedLe (build_merged nfkd rW rP banned onefootball
          (wtm ++ daddylive ++ allfootball)) ∧
    (build_merged nfkd rW rP banned onefootball
        (wtm ++ daddylive ++ allfootball)).all
      (fun m => (strptimeYmdHM m.base.kickoff).isSome) = true := by
  unfold merge_matches at hmerge
  by_cases h : (build_merged nfkd rW rP banned onefootball
      (wtm ++ daddylive ++ allfootball)).all
    (fun m => (strptimeYmdHM m.base.kickoff).isSome) = true
  · rw [if_pos h] at hmerge
    exact ⟨(Option.some_inj.mp hmerge).symm, h⟩
  · rw [if_neg h] at hmerge
    exact absurd hmerge (by simp)

theorem mem_merge_out (nfkd : List Char → List Char)
    (rW rP : List Char → List Char → Nat) (banned : List (List Char))
    (onefootball : List PrimRec) (wtm daddylive allfootball : List AuxRec)
    (out : List MergedMatch)
    (hmerge : merge_matches nfkd rW rP banned onefootball wtm daddylive allfootball =
      some out)
    (m : MergedMatch) (hm : m ∈ out) :
    m ∈ build_merged nfkd rW rP banned onefootball
      (wtm ++ daddylive ++ allfootball) := by
  obtain ⟨hout, -⟩ := merge_matches_some_parts nfkd rW rP banned onefootball
    wtm daddylive allfootball out hmerge
  subst hout
  exact (sortLe_perm mergedLe _).mem_iff.mp hm

/-! ### Claim C5 -/

/-- C5: the competition filter acts only on primary-source records —
every record in the merge output is unbanned, while auxiliary records
are never tested: any auxiliary record whose teams match an output
record has all its channels accumulated, and every non-empty such
channel survives (case-insensitively) into the merged channel list,
regardless of what the auxiliary record's names contain. -/
theorem merge_filter_scope (nfkd : List Char → List Char)
    (rW rP : List Char → List Char → Nat) (banned : List (List Char))
    (onefootball : List PrimRec) (wtm daddylive allfootball : List AuxRec)
    (out : List MergedMatch)
    (hmerge : merge_matches nfkd rW rP banned onefootball wtm daddylive allfootball =
      some out) :
    (∀ m ∈ out,
      is_banned_match banned m.base.home m.base.away m.base.competition = false) ∧
    (∀ m ∈ out, ∀ a ∈ wtm ++ daddylive ++ allfootball,
      teams_match nfkd rW rP m.base.home m.base.away a.home a.away = true →
      ∀ ch ∈ a.channels,
        ch ∈ collect_channels nfkd rW rP m.base (wtm ++ daddylive ++ allfootball) ∧
        (ch ≠ [] → ∃ ch2 ∈ m.channels, lowerStr ch2 = lowerStr ch)) := by
  constructor
  · intro m hm
    exact (mem_build_merged _ _ _ _ _ _ _
      (mem_merge_out _ _ _ _ _ _ _ _ _ hmerge m hm)).2.1
  · intro m hm a ha hmatch ch hch
    have hcoll := mem_collect_channels nfkd rW rP m.base _ a ha hmatch ch hch
    refine ⟨hcoll, fun hne => ?_⟩
    obtain ⟨ch2, hch2, hlow⟩ := dedup_mem_lower _ ch hcoll hne
    have hchan := (mem_build_merged _ _ _ _ _ _ _
      (mem_merge_out _ _ _ _ _ _ _ _ _ hmerge m hm)).2.2
    have hne2 : dedupChannels (collect_channels nfkd rW rP m.base
        (wtm ++ daddylive ++ allfootball)) ≠ [] := by
      intro h0
      rw [h0] at hch2
      exact List.not_mem_nil ch2 hch2
    rw [hchan, if_neg hne2]
    exact ⟨ch2, hch2, hlow⟩

/-! ### Claim C7 -/

/-- C7: an output record whose deduplicated accumulated channel list is
empty gets exactly the single-element list ["Not specified"]. -/
theorem merge_not_specified (nfkd : List Char → List Char)
    (rW rP : List Char → List Char → Nat) (banned : List (List Char))
    (onefootball : List PrimRec) (wtm daddylive allfootball : List AuxRec)
    (out : List MergedMatch)
    (hmerge : merge_matches nfkd rW rP banned onefootball wtm daddylive allfootball =
      some out)
    (m : MergedMatch) (hm : m ∈ out)
    (hempty : dedupChannels (collect_channels nfkd rW rP m.base
      (wtm ++ daddylive ++ allfootball)) = []) :
    m.channels = [notSpecified] := by
  have hchan := (mem_build_merged _ _ _ _ _ _ _
    (mem_merge_out _ _ _ _ _ _ _ _ _ hmerge m hm)).2.2
  rw [hchan, if_pos hempty]

/-! ### Claim C8 -/

/-- C8: the merge output is sorted ascending by the parsed kickoff
timestamp (every record's kickoff does parse in a successful merge,
and any earlier record's parsed kickoff is `dtLe` any later one's). -/
theorem merge_matches_sorted (nfkd : List Char → List Char)
    (rW rP : List Char → List Char → Nat) (banned : List (List Char))
    (onefootball : List PrimRec) (wtm daddylive allfootball : List AuxRec)
    (out : List MergedMatch)
    (hmerge : merge_matches nfkd rW rP banned onefootball wtm daddylive allfootball =
      some out) :
    (∀ m ∈ out, (strptimeYmdHM m.base.kickoff).isSome = true) ∧
    out.Pairwise (fun a b => mergedLe a b = true) := by
  obtain ⟨hout, hall⟩ := merge_matches_some_parts nfkd rW rP banned onefootball
    wtm daddylive allfootball out hmerge
  constructor
  · intro m hm
    have hmem : m ∈ build_merged nfkd rW rP banned onefootball
        (wtm ++ daddylive ++ allfootball) := by
      rw [hout] at hm
      exact (sortLe_perm mergedLe _).mem_iff.mp hm
    exact List.all_eq_true.mp hall m hmem
  · rw [hout]
    exact sortLe_pairwise mergedLe mergedLe_total mergedLe_trans _

/-! ### Claim C9 -/

/-- C9: a surviving (unbanned) primary record whose kickoff does not
parse in the format "%Y-%m-%d %H:%M" makes the whole merge fail (no
partial result), modelled by `merge_matches` returning `none`. -/
theorem merge_matches_fail_fast (nfkd : List Char → List Char)
    (rW rP : List Char → List Char → Nat) (banned : List (List Char))
    (onefootball : List PrimRec) (wtm daddylive allfootball : List AuxRec)
    (om : PrimRec) (hom : om ∈ onefootball)
    (hnb : is_banned_match banned om.home om.away om.competition = false)
    (hbad : strptimeYmdHM om.kickoff = none) :
    merge_matches nfkd rW rP banned onefootball wtm daddylive allfootball = none := by
  unfold merge_matches
  rw [if_neg]
  intro hall
  obtain ⟨m, hm, hbase⟩ := build_merged_mem_of nfkd rW rP banned onefootball
    (wtm ++ daddylive ++ allfootball) om hom hnb
  have := List.all_eq_true.mp hall m hm
  rw [hbase, hbad] at this
  exact absurd this (by simp)

/-! ### Claim C10 -/

/-- C10: empty-string channels are silently dropped — no output record
ever lists the empty string as a channel, and a record all of whose
accumulated channels are empty strings ends up with ["Not specified"]
even though the raw accumulation was non-empty. -/
theorem merge_drops_empty_channels (nfkd : List Char → List Char)
    (rW rP : List Char → List Char → Nat) (banned : List (List Char))
    (onefootball : List PrimRec) (wtm daddylive allfootball : List AuxRec)
    (out : List MergedMatch)
    (hmerge : merge_matches nfkd rW rP banned onefootball wtm daddylive allfootball =
      some out)
    (m : MergedMatch) (hm : m ∈ out) :
    ([] : List Char) ∉ m.channels ∧
    ((∀ ch ∈ collect_channels nfkd rW rP m.base (wtm ++ daddylive ++ allfootball),
        ch = []) →
      m.channels = [notSpecified]) := by
  have hchan := (mem_build_merged _ _ _ _ _ _ _
    (mem_merge_out _ _ _ _ _ _ _ _ _ hmerge m hm)).2.2
  constructor
  · rw [hchan]
    by_cases h : dedupChannels (collect_channels nfkd rW rP m.base
        (wtm ++ daddylive ++ allfootball)) = []
    · rw [if_pos h]
      intro hmem
      rcases List.mem_singleton.mp hmem with heq
      exact absurd heq.symm (by unfold notSpecified; decide)
    · rw [if_neg h]
      exact dedupAux_not_mem_nil _ []
  · intro hall
    have h0 : dedupChannels (collect_channels nfkd rW rP m.base
        (wtm ++ daddylive ++ allfootball)) = [] := dedupAux_all_nil _ hall []
    rw [hchan, if_pos h0]

/-! ### Claim C6 -/

/-- C6 counterexample: for the accumulated channel list [""], the
accumulated channel "" appears zero times — not exactly once — in the
deduplicated output, because the dedup loop's truthiness test drops
empty strings. -/
theorem dedup_channels_count_counterexample :
    ¬ (∀ ch ∈ [([] : List Char)], (dedupChannels [([] : List Char)]).count ch = 1) := by
  decide

/-- C6 (amended): the deduplicated channel list is a subsequence of the
accumulated list, the given example deduplicates as stated, and every
NON-EMPTY accumulated channel is represented in the output exactly
once, by its first case-insensitive occurrence, in first-seen order
(empty-string channels are dropped, see C10). -/
theorem dedup_channels_spec :
    dedupChannels (["Sky", "BT Sport", "sky", "SKY"].map String.toList) =
      ["Sky", "BT Sport"].map String.toList ∧
    ∀ l, (dedupChannels l).Sublist l ∧
      ∀ ch ∈ l, ch ≠ [] →
        (dedupChannels l).filter (fun c => decide (lowerStr c = lowerStr ch)) =
          [(l.filter (fun c => decide (lowerStr c = lowerStr ch))).headI] :=
  ⟨by decide, fun l => ⟨dedupAux_sublist l [], fun ch hch hne =>
    dedupAux_filter_first l ch hne [] (List.not_mem_nil _) hch⟩⟩

/-- Witness for C6 (amended) at a concrete accumulated list. -/
theorem dedup_channels_spec_witness :
    String.toList "sky" ∈ ["Sky", "sky", "Bt"].map String.toList ∧
    String.toList "sky" ≠ [] ∧
    (dedupChannels (["Sky", "sky", "Bt"].map String.toList)).filter
        (fun c => decide (lowerStr c = lowerStr (String.toList "sky"))) =
      [((["Sky", "sky", "Bt"].map String.toList).filter
        (fun c => decide (lowerStr c = lowerStr (String.toList "sky")))).headI] :=
  ⟨by decide, by decide,
    (dedup_channels_spec.2 (["Sky", "sky", "Bt"].map String.toList)).2
      (String.toList "sky") (by decide) (by decide)⟩

/-! ### Witnesses for the merge claims -/

/-- Witness for C5: a women's auxiliary record — which the filter
would flag, as the second conjunct shows — still contributes its
channel "ESPN" to the surviving primary record's merged list. -/
theorem merge_filter_scope_witness :
    merge_matches id zeroRatio zeroRatio [] [primArsenal] [auxWomen] [] [] =
      some [mergedArsenal] ∧
    is_banned_match [] auxWomen.home auxWomen.away (String.toList "x") = true ∧
    ((∀ m ∈ [mergedArsenal],
        is_banned_match [] m.base.home m.base.away m.base.competition = false) ∧
     (∀ m ∈ [mergedArsenal], ∀ a ∈ [auxWomen] ++ [] ++ [],
        teams_match id zeroRatio zeroRatio m.base.home m.base.away a.home a.away = true →
        ∀ ch ∈ a.channels,
          ch ∈ collect_channels id zeroRatio zeroRatio m.base
            ([auxWomen] ++ [] ++ []) ∧
          (ch ≠ [] → ∃ ch2 ∈ m.channels, lowerStr ch2 = lowerStr ch))) :=
  ⟨by decide, by decide,
    merge_filter_scope id zeroRatio zeroRatio [] [primArsenal] [auxWomen] [] []
      [mergedArsenal] (by decide)⟩

/-- Witness for C7: with no auxiliary records at all the accumulated
list deduplicates to [] and the emitted channels are exactly
["Not specified"]. -/
theorem merge_not_specified_witness :
    merge_matches id zeroRatio zeroRatio [] [primK1] [] [] [] =
      some [mergedOf primK1] ∧
    mergedOf primK1 ∈ [mergedOf primK1] ∧
    dedupChannels (collect_channels id zeroRatio zeroRatio (mergedOf primK1).base
      ([] ++ [] ++ [])) = [] ∧
    (mergedOf primK1).channels = [notSpecified] :=
  ⟨by decide, by decide, by decide,
    merge_not_specified id zeroRatio zeroRatio [] [primK1] [] [] []
      [mergedOf primK1] (by decide) (mergedOf primK1) (by decide) (by decide)⟩

/-- Witness for C8: primaries fed in kickoff order T1, T2, T3 with
T2 < T1 < T3 come out in order T2, T1, T3, all kickoffs parsed, and
pairwise ordered. -/
theorem merge_matches_sorted_witness :
    merge_matches id zeroRatio zeroRatio [] [primK1, primK2, primK3] [] [] [] =
      some [mergedOf primK2, mergedOf primK1, mergedOf primK3] ∧
    ((∀ m ∈ [mergedOf primK2, mergedOf primK1, mergedOf primK3],
        (strptimeYmdHM m.base.kickoff).isSome = true) ∧
      List.Pairwise (fun a b => mergedLe a b = true)
        [mergedOf primK2, mergedOf primK1, mergedOf primK3]) :=
  ⟨by decide,
    merge_matches_sorted id zeroRatio zeroRatio [] [primK1, primK2, primK3] [] [] []
      [mergedOf primK2, mergedOf primK1, mergedOf primK3] (by decide)⟩

/-- Witness for C9: an unbanned primary record with kickoff "Unknown"
makes the whole merge produce no result. -/
theorem merge_matches_fail_fast_witness :
    primBadKick ∈ [primBadKick] ∧
    is_banned_match [] primBadKick.home primBadKick.away primBadKick.competition =
      false ∧
    strptimeYmdHM primBadKick.kickoff = none ∧
    merge_matches id zeroRatio zeroRatio [] [primBadKick] [] [] [] = none :=
  ⟨by decide, by decide, by decide,
    merge_matches_fail_fast id zeroRatio zeroRatio [] [primBadKick] [] [] []
      primBadKick (by decide) (by decide) (by decide)⟩

/-- Witness for C10: an auxiliary record contributing exactly two
empty-string channels yields a non-empty raw accumulation, yet the
output contains no empty string and falls back to ["Not specified"]. -/
theorem merge_drops_empty_channels_witness :
    merge_matches id zeroRatio zeroRatio [] [primEmptyCh] [auxEmptyCh] [] [] =
      some [mergedOf primEmptyCh] ∧
    collect_channels id zeroRatio zeroRatio (mergedOf primEmptyCh).base
      ([auxEmptyCh] ++ [] ++ []) = [[], []] ∧
    ([] : List Char) ∉ (mergedOf primEmptyCh).channels ∧
    (mergedOf primEmptyCh).channels = [notSpecified] :=
  ⟨by decide, by decide,
    (merge_drops_empty_channels id zeroRatio zeroRatio [] [primEmptyCh] [auxEmptyCh]
      [] [] [mergedOf primEmptyCh] (by decide) (mergedOf primEmptyCh) (by decide)).1,
    (merge_drops_empty_channels id zeroRatio zeroRatio [] [primEmptyCh] [auxEmptyCh]
      [] [] [mergedOf primEmptyCh] (by decide) (mergedOf primEmptyCh) (by decide)).2
      (by decide)⟩

end Football
